import Mathlib

/-!
Verification of the asset reconciliation sensor
(`dagster/_core/definitions/asset_reconciliation_sensor.py`).

The sensor is a pure tick function over (cursor, event-log snapshot, asset
graph).  We embed it shallowly:

* `EventInstance` models the external event-log / run-store queries used by
  `_get_parent_updates` (`get_event_records` with `limit=1`, `get_runs` with
  `IN_PROGRESS_RUN_STATUSES`, `get_records_for_run`).  Each query is a field,
  since the store itself is outside this repository.
* Timestamps are modelled as naturals: the code only compares timestamps and
  takes maxima, so only the ordered structure of the float timestamps matters.
* `AssetKey` is modelled by its canonical string form (`str(asset_key)`), so
  `strKey` is the identity; `RunId` is a string.
* Python dicts become association lists with dict update semantics
  (`insertAssoc`), preserving insertion order as CPython does.
-/

namespace AssetReconciliation

abbrev AssetKey := String
abbrev RunId := String
abbrev Time := Nat

/-- The canonical string form `str(asset_key)` used as the cursor-map key. -/
def strKey (a : AssetKey) : String := a

/-- External event-log / run-store queries used by the sensor
(`context.instance` in the source).  `latestCompleted` is the
`ASSET_MATERIALIZATION` query with `ascending=False, limit=1` (timestamp and
run id of the most recent completed materialization); `latestPlanned` is the
`ASSET_MATERIALIZATION_PLANNED` query with `limit=1` (run id of the most
recent planned materialization); `runInProgress` is the `get_runs` check
against `IN_PROGRESS_RUN_STATUSES`; `plannedAssetsInRun` is
`get_records_for_run(run_id, ASSET_MATERIALIZATION_PLANNED)` projected to the
asset keys. -/
structure EventInstance where
  latestPlanned : AssetKey → Option RunId
  runInProgress : RunId → Bool
  latestCompleted : AssetKey → Option (Time × RunId)
  plannedAssetsInRun : RunId → List AssetKey

/-- Lines 126-161 of `_get_parent_updates`: evaluate one parent `p` that is
not in `will_materialize_list`, against the completed-materialization log. -/
def evalParent (inst : EventInstance) (currentAsset : AssetKey)
    (cursorTimestamp : Time) (p : AssetKey) : Bool × Time :=
  match inst.latestCompleted p with
  | some (ts, rid) =>
    if cursorTimestamp < ts then
      if currentAsset ∈ inst.plannedAssetsInRun rid then
        -- the run that produced p also planned current_asset
        (false, ts)
      else
        (true, ts)
    else (false, 0)
  | none => (false, 0)

/-- Lines 99-118: the most recent planned materialization of `p` sits in a run
that is currently in progress. -/
def inProgressFor (inst : EventInstance) (p : AssetKey) : Bool :=
  match inst.latestPlanned p with
  | some r => inst.runInProgress r
  | none => false

/-- The status a parent receives in the non-aborting pass of
`_get_parent_updates`: `(True, 0.0)` when it is in `will_materialize_list`,
otherwise the result of the completed-materialization check. -/
def parentStatus (inst : EventInstance) (currentAsset : AssetKey)
    (cursorTimestamp : Time) (willMaterialize : List AssetKey)
    (p : AssetKey) : Bool × Time :=
  if p ∈ willMaterialize then (true, 0) else
    evalParent inst currentAsset cursorTimestamp p

/-- The loop of `_get_parent_updates` over `parent_assets`; `none` signals the
early `return` at line 124 (some parent outside `will_materialize_list` has
its latest planned materialization inside an in-progress run). -/
def getParentUpdatesAux (inst : EventInstance) (currentAsset : AssetKey)
    (cursorTimestamp : Time) (willMaterialize : List AssetKey)
    (wait : Bool) : List AssetKey → Option (List (AssetKey × Bool × Time))
  | [] => some []
  | p :: rest =>
    if p ∈ willMaterialize then
      (getParentUpdatesAux inst currentAsset cursorTimestamp willMaterialize wait rest).map
        (fun l => (p, true, 0) :: l)
    else if wait && inProgressFor inst p then
      none
    else
      (getParentUpdatesAux inst currentAsset cursorTimestamp willMaterialize wait rest).map
        (fun l => (p, evalParent inst currentAsset cursorTimestamp p) :: l)

/-- `_get_parent_updates` (lines 38-163): the per-parent statuses for
`current_asset`, as the association list `parent_asset_event_records`.  On the
early return every parent of the asset is mapped to `(False, 0.0)`. -/
def getParentUpdates (inst : EventInstance) (currentAsset : AssetKey)
    (parentAssets : List AssetKey) (cursorTimestamp : Time)
    (willMaterialize : List AssetKey) (wait : Bool) :
    List (AssetKey × Bool × Time) :=
  match getParentUpdatesAux inst currentAsset cursorTimestamp willMaterialize wait
      parentAssets with
  | none => parentAssets.map (fun pp => (pp, false, 0))
  | some l => l

/-- The condition of the early return: some parent outside
`will_materialize_list` has its latest planned materialization in an
in-progress run (and `wait_for_in_progress_runs` is set). -/
def abortCond (inst : EventInstance) (parentAssets : List AssetKey)
    (willMaterialize : List AssetKey) (wait : Bool) : Bool :=
  parentAssets.any (fun p => !(decide (p ∈ willMaterialize)) && (wait && inProgressFor inst p))

/-- Python `max(l)` on a nonempty list of nonnegative timestamps. -/
def pyMax (l : List Time) : Time := l.foldl max 0

/-- Lines 220-226: `condition = all if and_condition else any` applied to the
status booleans of `parent_update_records.values()`. -/
def launchCond (andCondition : Bool) (records : List (AssetKey × Bool × Time)) : Bool :=
  if andCondition then (records.map (fun r => r.2.1)).all id
  else (records.map (fun r => r.2.1)).any id

/-- Lines 228-230: `max([cursor_val for _, cursor_val in records.values()] +
[a_cursor])`. -/
def newCursorVal (records : List (AssetKey × Bool × Time)) (aCursor : Time) : Time :=
  pyMax ((records.map (fun r => r.2.2)) ++ [aCursor])

/-- Python dict assignment `d[k] = v`: update in place if the key exists,
else append (CPython dicts preserve insertion order). -/
def insertAssoc (m : List (String × Time)) (k : String) (v : Time) :
    List (String × Time) :=
  match m with
  | [] => [(k, v)]
  | (k', v') :: rest =>
    if k' = k then (k, v) :: rest else (k', v') :: insertAssoc rest k v

/-- `upstream[a]`: the parent set of a monitored child in the upstream
mapping (association list with the children as keys). -/
def depsOf (up : List (AssetKey × List AssetKey)) (a : AssetKey) :
    List AssetKey := (up.lookup a).getD []

/-- The mutable state of the loop in `sensor_fn`: `should_materialize` and
`cursor_update_dict`. -/
structure TickState where
  shouldMaterialize : List AssetKey
  cursorUpdateDict : List (String × Time)
deriving DecidableEq, Repr

/-- One iteration of the loop at lines 208-230 of `sensor_fn`: seed
`cursor_update_dict[str(a)]` with the asset's current cursor, compute the
parent statuses, and launch (appending to `should_materialize` and raising the
cursor entry to `max(cursor_vals + [a_cursor])`) when the `all`/`any`
condition over the status booleans holds. -/
def processAsset (inst : EventInstance) (up : List (AssetKey × List AssetKey))
    (andCondition wait : Bool) (cursorDict : List (String × Time))
    (st : TickState) (a : AssetKey) : TickState :=
  let aCursor : Time := ((cursorDict.lookup (strKey a)).getD 0)
  let cu := insertAssoc st.cursorUpdateDict (strKey a) aCursor
  let records := getParentUpdates inst a (depsOf up a) aCursor st.shouldMaterialize wait
  if launchCond andCondition records then
    ⟨st.shouldMaterialize ++ [a],
      insertAssoc cu (strKey a) (newCursorVal records aCursor)⟩
  else
    ⟨st.shouldMaterialize, cu⟩

/-- The loop at lines 208-230, over the topologically sorted assets. -/
def tickLoop (inst : EventInstance) (up : List (AssetKey × List AssetKey))
    (andCondition wait : Bool) (cursorDict : List (String × Time)) :
    List AssetKey → TickState → TickState
  | [], st => st
  | a :: rest, st =>
    tickLoop inst up andCondition wait cursorDict rest
      (processAsset inst up andCondition wait cursorDict st a)

/-- The decision core of one tick: run the per-asset loop over the given
processing order starting from empty `should_materialize` and
`cursor_update_dict`. -/
def tickCore (inst : EventInstance) (up : List (AssetKey × List AssetKey))
    (andCondition wait : Bool) (cursorDict : List (String × Time))
    (order : List AssetKey) : TickState :=
  tickLoop inst up andCondition wait cursorDict order ⟨[], []⟩

/-- The cursor value the loop reads for an asset:
`cursor_dict.get(str(a), 0.0)`. -/
def cursorOf (cd : List (String × Time)) (a : AssetKey) : Time :=
  (cd.lookup (strKey a)).getD 0

/-- The parent statuses computed for asset `a` against launch set `L`. -/
def recordsFor (inst : EventInstance) (up : List (AssetKey × List AssetKey))
    (cd : List (String × Time)) (L : List AssetKey) (w : Bool) (a : AssetKey) :
    List (AssetKey × Bool × Time) :=
  getParentUpdates inst a (depsOf up a) (cursorOf cd a) L w

/-! ## Topological ordering (lines 199-204)

The source calls `toposort.toposort(upstream)`, which yields Kahn layers
(sets of items all of whose dependencies lie in earlier layers; dependencies
that are not keys are treated as items with no dependencies, and self
dependencies are ignored), and then flattens the layers keeping only the
monitored children (`asset in upstream.keys()`).  Python iterates dict keys
in insertion order but iterates each layer set in hash order; we model the
iteration order of a layer as insertion order of the items. -/

/-- First-occurrence deduplication (the item set of the toposort). -/
def dedupFirst : List AssetKey → List AssetKey
  | [] => []
  | x :: xs => x :: (dedupFirst xs).filter (fun y => y != x)

/-- Kahn layering: repeatedly emit every remaining item all of whose
dependencies have already been emitted.  The fuel bounds the number of
rounds; on a cycle (no ready item) the layering stops. -/
def kahnAux (deps : AssetKey → List AssetKey) :
    Nat → List AssetKey → List AssetKey → List AssetKey
  | 0, _, _ => []
  | fuel+1, remaining, done =>
    let ready := remaining.filter (fun k => (deps k).all (fun d => decide (d ∈ done)))
    if ready.isEmpty then []
    else
      ready ++ kahnAux deps fuel
        (remaining.filter (fun k => !(decide (k ∈ ready)))) (done ++ ready)

/-- The item set of the toposort: the keys of the upstream map together with
every dependency occurring in it (the library adds dependencies that are not
keys as items with no dependencies). -/
def topoItems (up : List (AssetKey × List AssetKey)) : List AssetKey :=
  dedupFirst ((up.map (fun pr => pr.1)) ++ (up.map (fun pr => pr.2)).flatten)

/-- The dependency function seen by the toposort; the library discards self
dependencies. -/
def topoDeps (up : List (AssetKey × List AssetKey)) (x : AssetKey) :
    List AssetKey :=
  (depsOf up x).filter (fun d => d != x)

/-- Lines 199-204 of `sensor_fn`: flatten `toposort.toposort(upstream)` and
keep only the monitored children (the keys of the upstream map). -/
def toposortAssets (up : List (AssetKey × List AssetKey)) : List AssetKey :=
  (kahnAux (topoDeps up) (topoItems up).length (topoItems up) []).filter
    (fun k => decide (k ∈ up.map (fun pr => pr.1)))

/-! ## Cursor codec (lines 195 and 233)

The cursor is persisted as `json.dumps(cursor_update_dict)` and read back
with `json.loads(context.cursor) if context.cursor else {}` — there is no
exception handling around the decode.  We model the codec concretely for the
flat string-to-timestamp maps the sensor writes: the exact output format of
`json.dumps` on such a dict, and a strict parser for it that fails (as
`json.loads` raises) on anything malformed. -/

def quoteChar : Char := Char.ofNat 34

def lbraceChar : Char := Char.ofNat 123

def rbraceChar : Char := Char.ofNat 125

/-- The serialization of one dict entry, `"key": value`. -/
def encodeEntry (e : String × Time) : String :=
  String.mk [quoteChar] ++ e.1 ++ String.mk [quoteChar] ++ ": " ++ toString e.2

/-- The comma-separated entry list of `json.dumps`. -/
def encodeEntries : List (String × Time) → String
  | [] => ""
  | [e] => encodeEntry e
  | e :: rest => encodeEntry e ++ ", " ++ encodeEntries rest

/-- The persisted cursor blob `json.dumps(cursor_update_dict)`. -/
def encodeCursor (m : List (String × Time)) : String :=
  String.mk [lbraceChar] ++ encodeEntries m ++ String.mk [rbraceChar]

/-- Drop leading spaces. -/
def skipSpaces : List Char → List Char
  | [] => []
  | c :: rest => if c = ' ' then skipSpaces rest else c :: rest

/-- Read the characters of a key up to the closing quote. -/
def parseKeyAux : List Char → Option (List Char × List Char)
  | [] => none
  | c :: rest =>
    if c = quoteChar then some ([], rest)
    else
      match parseKeyAux rest with
      | some (k, r) => some (c :: k, r)
      | none => none

/-- Split off a maximal run of leading decimal digits. -/
def takeDigits : List Char → (List Char × List Char)
  | [] => ([], [])
  | c :: rest =>
    if c.isDigit then
      let dr := takeDigits rest
      (c :: dr.1, dr.2)
    else ([], c :: rest)

/-- Numeric value of a digit run. -/
def digitsToNat (ds : List Char) : Nat :=
  ds.foldl (fun acc c => 10 * acc + (c.toNat - 48)) 0

/-- Parse a nonempty comma-separated entry list followed by the closing
brace. -/
def parseEntries : Nat → List Char → Option (List (String × Time) × List Char)
  | 0, _ => none
  | fuel+1, cs =>
    match skipSpaces cs with
    | c :: rest =>
      if c = quoteChar then
        match parseKeyAux rest with
        | some (k, r1) =>
          match skipSpaces r1 with
          | c2 :: r2 =>
            if c2 = ':' then
              let dr := takeDigits (skipSpaces r2)
              if dr.1.isEmpty then none
              else
                let v := digitsToNat dr.1
                match skipSpaces dr.2 with
                | c3 :: r4 =>
                  if c3 = ',' then
                    match parseEntries fuel r4 with
                    | some (l, r5) => some ((String.mk k, v) :: l, r5)
                    | none => none
                  else if c3 = rbraceChar then
                    some ([(String.mk k, v)], r4)
                  else none
                | [] => none
            else none
          | [] => none
        | none => none
      else none
    | [] => none

/-- The model of `json.loads` restricted to flat string-to-timestamp objects;
`none` models the raised `JSONDecodeError`. -/
def jsonLoadsDict (s : String) : Option (List (String × Time)) :=
  match skipSpaces s.toList with
  | c :: rest =>
    if c = lbraceChar then
      let rest' := skipSpaces rest
      match rest' with
      | c2 :: r2 =>
        if c2 = rbraceChar then
          if (skipSpaces r2).isEmpty then some [] else none
        else
          match parseEntries (rest'.length + 1) rest' with
          | some (l, r) => if (skipSpaces r).isEmpty then some l else none
          | none => none
      | [] => none
    else none
  | [] => none

/-- Line 195: `json.loads(context.cursor) if context.cursor else {}` — both a
missing cursor and the empty string are falsy and give the empty dict; any
other string goes through the decoder, whose failure propagates. -/
def decodeCursor (cursor : Option String) : Option (List (String × Time)) :=
  match cursor with
  | none => some []
  | some s => if s = "" then some [] else jsonLoadsDict s

/-! ## The full tick (`sensor_fn`, lines 186-235) -/

/-- The run request emitted at line 235: `run_key` is the freshly written
cursor string, `asset_selection` is `should_materialize`. -/
structure RunRequest where
  runKey : String
  assetSelection : List AssetKey
deriving DecidableEq, Repr

/-- Outcome of one tick: either the cursor decode raised, or the tick
finished with an optional cursor write and an optional run request. -/
inductive TickResult where
  | decodeError : TickResult
  | ok : Option String → Option RunRequest → TickResult
deriving DecidableEq, Repr

/-- `sensor_fn` (lines 186-235): decode the cursor, order the monitored
children topologically, run the decision loop, and — only when
`should_materialize` is nonempty — write `json.dumps(cursor_update_dict)`
back and emit one run request keyed by the new cursor string. -/
def sensorFn (inst : EventInstance) (up : List (AssetKey × List AssetKey))
    (andCondition wait : Bool) (cursor : Option String) : TickResult :=
  match decodeCursor cursor with
  | none => TickResult.decodeError
  | some cursorDict =>
    let st := tickCore inst up andCondition wait cursorDict (toposortAssets up)
    if st.shouldMaterialize.isEmpty then
      TickResult.ok none none
    else
      TickResult.ok (some (encodeCursor st.cursorUpdateDict))
        (some ⟨encodeCursor st.cursorUpdateDict, st.shouldMaterialize⟩)

/-! ## Specification-side definitions and witness fixtures -/

/-- The per-parent status exactly as the specification states it: a parent in
the launch set gets `(true, 0)`; otherwise, with `e` the latest completed
materialization, absence or `e.timestamp ≤ t_c` gives `(false, 0)`, a newer
completion whose run also planned the child gives `(false, e.timestamp)`, and
any other newer completion gives `(true, e.timestamp)`. -/
def specParentStatus (inst : EventInstance) (c : AssetKey) (tc : Time)
    (L : List AssetKey) (p : AssetKey) : Bool × Time :=
  if p ∈ L then (true, 0)
  else
    match inst.latestCompleted p with
    | none => (false, 0)
    | some (ts, rid) =>
      if ts ≤ tc then (false, 0)
      else if c ∈ inst.plannedAssetsInRun rid then (false, ts)
      else (true, ts)

/-- Fixture: parents "a" (completion at 5 in run "ra", which also planned the
child "c"), "b" (completion at 3 in run "rb"), an in-progress planned run for
"q", and no other events. -/
def instW : EventInstance :=
  { latestPlanned := fun k => if k = "q" then some "rq" else none
    runInProgress := fun r => r == "rq"
    latestCompleted := fun k =>
      if k = "a" then some (5, "ra") else if k = "b" then some (3, "rb") else none
    plannedAssetsInRun := fun r =>
      if r = "ra" then ["a", "c"] else if r = "rb" then ["b"] else [] }

/-- Fixture for the in-flight loophole: "p" (parent of "c") has its latest
planned materialization in the in-progress run "r2", while "a" (parent of
"p") has a fresh completion at 1. -/
def instC3 : EventInstance :=
  { latestPlanned := fun k => if k = "p" then some "r2" else none
    runInProgress := fun r => r == "r2"
    latestCompleted := fun k => if k = "a" then some (1, "r1") else none
    plannedAssetsInRun := fun r => if r = "r1" then ["a"] else [] }

def upC3 : List (AssetKey × List AssetKey) := [("p", ["a"]), ("c", ["p"])]

/-- Fixture for co-materialization: run "r" produced parent "p" at time 5 and
also planned child "c". -/
def instC4 : EventInstance :=
  { latestPlanned := fun _ => none
    runInProgress := fun _ => false
    latestCompleted := fun k => if k = "p" then some (5, "r") else none
    plannedAssetsInRun := fun r => if r = "r" then ["p", "c"] else [] }

def upC4 : List (AssetKey × List AssetKey) := [("c", ["p"])]

/-- Fixture for spurious relaunch: "d" (monitored, parent "a") rides its
parent's fresh completion "a"@1 (run "r1"); "f" (monitored, parent "d")
launches only because "d" is in the launch set, while "d" itself has an older
completion at 7 in run "r2" that the tick never examines. -/
def instC5 : EventInstance :=
  { latestPlanned := fun _ => none
    runInProgress := fun _ => false
    latestCompleted := fun k =>
      if k = "a" then some (1, "r1") else if k = "d" then some (7, "r2") else none
    plannedAssetsInRun := fun r =>
      if r = "r1" then ["a"] else if r = "r2" then ["d"] else [] }

def upC5 : List (AssetKey × List AssetKey) := [("d", ["a"]), ("f", ["d"])]

/-- Fixture with a single fresh parent completion "a"@1 for monitored "d". -/
def instW5 : EventInstance :=
  { latestPlanned := fun _ => none
    runInProgress := fun _ => false
    latestCompleted := fun k => if k = "a" then some (1, "r1") else none
    plannedAssetsInRun := fun r => if r = "r1" then ["a"] else [] }

def upW5 : List (AssetKey × List AssetKey) := [("d", ["a"])]

/-- A rank function witnessing acyclicity of the fixture graphs
("a" below "d" below "f"). -/
def rankW8 : AssetKey → Nat := fun k =>
  if k = "a" then 0 else if k = "d" then 1 else 2

/-- Fixture with an empty event log. -/
def instQuiet : EventInstance :=
  { latestPlanned := fun _ => none
    runInProgress := fun _ => false
    latestCompleted := fun _ => none
    plannedAssetsInRun := fun _ => [] }

/-! ## Basic lemmas -/

theorem le_foldl_max (l : List Time) (a : Time) : a ≤ l.foldl max a := by
  induction l generalizing a with
  | nil => simp
  | cons b l ih => exact le_trans (le_max_left a b) (ih (max a b))

theorem foldl_max_le_of_mem {l : List Time} {x : Time} (h : x ∈ l) (a : Time) :
    x ≤ l.foldl max a := by
  induction l generalizing a with
  | nil => cases h
  | cons b l ih =>
    rcases List.mem_cons.mp h with h1 | h2
    · subst h1
      exact le_trans (le_max_right a x) (le_foldl_max l (max a x))
    · exact ih h2 (max a b)

theorem le_pyMax_of_mem {l : List Time} {x : Time} (h : x ∈ l) : x ≤ pyMax l :=
  foldl_max_le_of_mem h 0

theorem pyMax_append_singleton (l : List Time) (t : Time) :
    pyMax (l ++ [t]) = max t (pyMax l) := by
  simp [pyMax, List.foldl_append, max_comm]

theorem aCursor_le_newCursorVal (records : List (AssetKey × Bool × Time))
    (aCursor : Time) : aCursor ≤ newCursorVal records aCursor :=
  le_pyMax_of_mem (by simp)

theorem ts_le_newCursorVal {records : List (AssetKey × Bool × Time)}
    {r : AssetKey × Bool × Time} (h : r ∈ records) (aCursor : Time) :
    r.2.2 ≤ newCursorVal records aCursor :=
  le_pyMax_of_mem (List.mem_append_left _ (List.mem_map_of_mem _ h))

theorem lookup_insertAssoc (m : List (String × Time)) (k k' : String) (v : Time) :
    (insertAssoc m k v).lookup k' = if k' = k then some v else m.lookup k' := by
  induction m with
  | nil =>
    by_cases h : k' = k
    · subst h; simp [insertAssoc, List.lookup]
    · have hb : (k' == k) = false := beq_eq_false_iff_ne.mpr h
      simp [insertAssoc, List.lookup, hb, h]
  | cons e rest ih =>
    obtain ⟨k0, v0⟩ := e
    simp only [insertAssoc]
    by_cases h0 : k0 = k
    · subst h0
      rw [if_pos rfl]
      by_cases h1 : k' = k0
      · subst h1; simp [List.lookup]
      · have hb : (k' == k0) = false := beq_eq_false_iff_ne.mpr h1
        simp [List.lookup, hb, h1]
    · rw [if_neg h0]
      by_cases h1 : k' = k0
      · subst h1
        simp [List.lookup, h0]
      · have hb : (k' == k0) = false := beq_eq_false_iff_ne.mpr h1
        simp [List.lookup, hb, ih]

theorem lookup_mem {α β : Type} [BEq α] [LawfulBEq α] {m : List (α × β)} {k : α}
    {v : β} (h : m.lookup k = some v) : (k, v) ∈ m := by
  induction m with
  | nil => simp [List.lookup] at h
  | cons e rest ih =>
    obtain ⟨k0, v0⟩ := e
    by_cases hk : k = k0
    · subst hk
      simp [List.lookup] at h
      simp [h]
    · have hk' : (k == k0) = false := by simp [hk]
      simp [List.lookup, hk'] at h
      exact List.mem_cons_of_mem _ (ih h)

theorem mem_depsOf {up : List (AssetKey × List AssetKey)} {c p : AssetKey}
    (h : p ∈ depsOf up c) : ∃ ps, (c, ps) ∈ up ∧ p ∈ ps := by
  unfold depsOf at h
  cases hl : up.lookup c with
  | none => rw [hl] at h; cases h
  | some ps =>
    rw [hl] at h
    exact ⟨ps, lookup_mem hl, h⟩

theorem map_pair_flags (P : List AssetKey) (f : AssetKey → Bool × Time) :
    (P.map (fun p => (p, f p))).map (fun r => r.2.1) = P.map (fun p => (f p).1) := by
  induction P with
  | nil => rfl
  | cons p P ih => simp [ih]

theorem map_pair_ts (P : List AssetKey) (f : AssetKey → Bool × Time) :
    (P.map (fun p => (p, f p))).map (fun r => r.2.2) = P.map (fun p => (f p).2) := by
  induction P with
  | nil => rfl
  | cons p P ih => simp [ih]

theorem lookup_map_self {P : List AssetKey} {p : AssetKey} (h : p ∈ P)
    (f : AssetKey → Bool × Time) :
    (P.map (fun q => (q, f q))).lookup p = some (f p) := by
  induction P with
  | nil => cases h
  | cons q P ih =>
    by_cases hq : p = q
    · subst hq
      simp [List.lookup]
    · have hq' : (p == q) = false := by simp [hq]
      rcases List.mem_cons.mp h with h1 | h2
      · exact absurd h1 hq
      · simp [List.lookup, hq', ih h2]

/-! ## Characterization of the parent-update pass -/

theorem getParentUpdatesAux_char (inst : EventInstance) (c : AssetKey) (t : Time)
    (L : List AssetKey) (wait : Bool) (P : List AssetKey) :
    getParentUpdatesAux inst c t L wait P =
      (if abortCond inst P L wait then none
       else some (P.map (fun p => (p, parentStatus inst c t L p)))) := by
  induction P with
  | nil => simp [getParentUpdatesAux, abortCond]
  | cons p rest ih =>
    by_cases hp : p ∈ L
    · have hcons : abortCond inst (p :: rest) L wait = abortCond inst rest L wait := by
        simp [abortCond, List.any_cons, hp]
      by_cases har : abortCond inst rest L wait
      · simp [getParentUpdatesAux, hp, ih, har, hcons]
      · simp [getParentUpdatesAux, hp, ih, har, hcons, parentStatus]
    · by_cases hw : (wait && inProgressFor inst p) = true
      · have hcons : abortCond inst (p :: rest) L wait = true := by
          simp [abortCond, List.any_cons, hp, hw]
        simp [getParentUpdatesAux, hp, hw, hcons]
      · have hw' : (wait && inProgressFor inst p) = false := by
          cases h' : (wait && inProgressFor inst p)
          · rfl
          · exact absurd h' hw
        have hcons : abortCond inst (p :: rest) L wait = abortCond inst rest L wait := by
          simp [abortCond, List.any_cons, hw']
        by_cases har : abortCond inst rest L wait
        · simp [getParentUpdatesAux, hp, hw', ih, har, hcons]
        · simp [getParentUpdatesAux, hp, hw', ih, har, hcons, parentStatus]

theorem getParentUpdates_eq (inst : EventInstance) (c : AssetKey)
    (P : List AssetKey) (t : Time) (L : List AssetKey) (wait : Bool) :
    getParentUpdates inst c P t L wait =
      if abortCond inst P L wait then P.map (fun p => (p, false, 0))
      else P.map (fun p => (p, parentStatus inst c t L p)) := by
  unfold getParentUpdates
  rw [getParentUpdatesAux_char]
  by_cases h : abortCond inst P L wait <;> simp [h]

theorem abortCond_eq_true_iff (inst : EventInstance) (P L : List AssetKey)
    (wait : Bool) :
    abortCond inst P L wait = true ↔
      ∃ p ∈ P, p ∉ L ∧ wait = true ∧ inProgressFor inst p = true := by
  simp [abortCond, List.any_eq_true, Bool.and_eq_true, and_assoc]

theorem abortCond_nil_of {inst : EventInstance} {P L : List AssetKey} {wait : Bool}
    (h : abortCond inst P L wait = true) : abortCond inst P [] wait = true := by
  rw [abortCond_eq_true_iff] at h ⊢
  obtain ⟨p, hp, _, hw, hip⟩ := h
  exact ⟨p, hp, by simp, hw, hip⟩

theorem launchCond_eq_false_of {ac : Bool} {records : List (AssetKey × Bool × Time)}
    (hne : records ≠ []) (hf : ∀ r ∈ records, r.2.1 = false) :
    launchCond ac records = false := by
  cases records with
  | nil => exact absurd rfl hne
  | cons r rest =>
    have h0 : r.2.1 = false := hf r (by simp)
    cases ac
    · show (((r :: rest).map (fun r => r.2.1)).any id) = false
      rw [List.any_eq_false]
      intro x hx
      rcases List.mem_map.mp hx with ⟨r', hr', hrx⟩
      simp [← hrx, hf r' hr']
    · show (((r :: rest).map (fun r => r.2.1)).all id) = false
      rw [List.all_eq_false]
      exact ⟨r.2.1, List.mem_map_of_mem _ (by simp), by simp [h0]⟩

/-- Once the cursor has advanced at least to a parent's last relevant
completion timestamp, that parent's updated flag is false. -/
theorem evalParent_fst_false_of_ge (inst : EventInstance) (c p : AssetKey)
    {t t' : Time} (h1 : t ≤ t') (h2 : (evalParent inst c t p).2 ≤ t') :
    (evalParent inst c t' p).1 = false := by
  cases hlc : inst.latestCompleted p with
  | none => simp [evalParent, hlc]
  | some tsr =>
    obtain ⟨ts, rid⟩ := tsr
    by_cases ht : t < ts
    · have hts : ts ≤ t' := by
        by_cases hc : c ∈ inst.plannedAssetsInRun rid
        · simpa [evalParent, hlc, ht, hc] using h2
        · simpa [evalParent, hlc, ht, hc] using h2
      simp [evalParent, hlc, Nat.not_lt.mpr hts]
    · have hts : ts ≤ t' := le_trans (Nat.not_lt.mp ht) h1
      simp [evalParent, hlc, Nat.not_lt.mpr hts]

/-! ## Structural lemmas about the tick loop -/

theorem strKey_inj {a b : AssetKey} (h : strKey a = strKey b) : a = b := h

theorem processAsset_eq (inst : EventInstance) (up : List (AssetKey × List AssetKey))
    (ac w : Bool) (cd : List (String × Time)) (st : TickState) (a : AssetKey) :
    processAsset inst up ac w cd st a =
      if launchCond ac (recordsFor inst up cd st.shouldMaterialize w a) then
        ⟨st.shouldMaterialize ++ [a],
          insertAssoc (insertAssoc st.cursorUpdateDict (strKey a) (cursorOf cd a))
            (strKey a)
            (newCursorVal (recordsFor inst up cd st.shouldMaterialize w a)
              (cursorOf cd a))⟩
      else
        ⟨st.shouldMaterialize,
          insertAssoc st.cursorUpdateDict (strKey a) (cursorOf cd a)⟩ := rfl

theorem processAsset_sm (inst : EventInstance) (up : List (AssetKey × List AssetKey))
    (ac w : Bool) (cd : List (String × Time)) (st : TickState) (a : AssetKey) :
    (processAsset inst up ac w cd st a).shouldMaterialize = st.shouldMaterialize ∨
    (processAsset inst up ac w cd st a).shouldMaterialize =
      st.shouldMaterialize ++ [a] := by
  rw [processAsset_eq]
  by_cases h : launchCond ac (recordsFor inst up cd st.shouldMaterialize w a) = true
  · rw [if_pos h]; right; rfl
  · rw [if_neg h]; left; rfl

theorem tickLoop_sm_superset (inst : EventInstance)
    (up : List (AssetKey × List AssetKey)) (ac w : Bool)
    (cd : List (String × Time)) :
    ∀ (rest : List AssetKey) (st : TickState) (x : AssetKey),
      x ∈ st.shouldMaterialize →
      x ∈ (tickLoop inst up ac w cd rest st).shouldMaterialize := by
  intro rest
  induction rest with
  | nil => intro st x hx; exact hx
  | cons a rest ih =>
    intro st x hx
    simp only [tickLoop]
    apply ih
    rcases processAsset_sm inst up ac w cd st a with h | h
    · rw [h]; exact hx
    · rw [h]; exact List.mem_append_left _ hx

theorem tickLoop_sm_from (inst : EventInstance)
    (up : List (AssetKey × List AssetKey)) (ac w : Bool)
    (cd : List (String × Time)) :
    ∀ (rest : List AssetKey) (st : TickState) (x : AssetKey),
      x ∈ (tickLoop inst up ac w cd rest st).shouldMaterialize →
      x ∈ st.shouldMaterialize ∨ x ∈ rest := by
  intro rest
  induction rest with
  | nil => intro st x hx; exact Or.inl hx
  | cons a rest ih =>
    intro st x hx
    simp only [tickLoop] at hx
    rcases ih _ x hx with h | h
    · rcases processAsset_sm inst up ac w cd st a with he | he
      · rw [he] at h; exact Or.inl h
      · rw [he] at h
        rcases List.mem_append.mp h with h1 | h1
        · exact Or.inl h1
        · simp at h1; subst h1; exact Or.inr (by simp)
    · exact Or.inr (List.mem_cons_of_mem _ h)

theorem processAsset_cud_other (inst : EventInstance)
    (up : List (AssetKey × List AssetKey)) (ac w : Bool)
    (cd : List (String × Time)) (st : TickState) (a : AssetKey) {k : String}
    (hk : ¬ (k = strKey a)) :
    ((processAsset inst up ac w cd st a).cursorUpdateDict.lookup k) =
      st.cursorUpdateDict.lookup k := by
  rw [processAsset_eq]
  by_cases h : launchCond ac (recordsFor inst up cd st.shouldMaterialize w a) = true
  · rw [if_pos h]
    simp [lookup_insertAssoc, hk]
  · rw [if_neg h]
    simp [lookup_insertAssoc, hk]

theorem tickLoop_cud_stable (inst : EventInstance)
    (up : List (AssetKey × List AssetKey)) (ac w : Bool)
    (cd : List (String × Time)) :
    ∀ (rest : List AssetKey) (st : TickState) (k : String),
      (∀ b ∈ rest, ¬ (k = strKey b)) →
      ((tickLoop inst up ac w cd rest st).cursorUpdateDict.lookup k) =
        st.cursorUpdateDict.lookup k := by
  intro rest
  induction rest with
  | nil => intro st k _; rfl
  | cons a rest ih =>
    intro st k hk
    simp only [tickLoop]
    rw [ih _ k (fun b hb => hk b (List.mem_cons_of_mem _ hb))]
    exact processAsset_cud_other inst up ac w cd st a (hk a (by simp))

theorem processAsset_cud_isSome (inst : EventInstance)
    (up : List (AssetKey × List AssetKey)) (ac w : Bool)
    (cd : List (String × Time)) (st : TickState) (a : AssetKey) (k : String) :
    (((processAsset inst up ac w cd st a).cursorUpdateDict.lookup k).isSome = true ↔
      ((st.cursorUpdateDict.lookup k).isSome = true ∨ k = strKey a)) := by
  rw [processAsset_eq]
  by_cases h : launchCond ac (recordsFor inst up cd st.shouldMaterialize w a) = true
  · rw [if_pos h]
    by_cases hk : k = strKey a <;> simp [lookup_insertAssoc, hk]
  · rw [if_neg h]
    by_cases hk : k = strKey a <;> simp [lookup_insertAssoc, hk]

theorem tickLoop_cud_isSome (inst : EventInstance)
    (up : List (AssetKey × List AssetKey)) (ac w : Bool)
    (cd : List (String × Time)) :
    ∀ (rest : List AssetKey) (st : TickState) (k : String),
      (((tickLoop inst up ac w cd rest st).cursorUpdateDict.lookup k).isSome = true ↔
        ((st.cursorUpdateDict.lookup k).isSome = true ∨ ∃ a ∈ rest, k = strKey a)) := by
  intro rest
  induction rest with
  | nil => intro st k; simp [tickLoop]
  | cons a rest ih =>
    intro st k
    simp only [tickLoop]
    rw [ih]
    rw [processAsset_cud_isSome]
    constructor
    · rintro ((h | h) | ⟨b, hb, hk⟩)
      · exact Or.inl h
      · exact Or.inr ⟨a, by simp, h⟩
      · exact Or.inr ⟨b, List.mem_cons_of_mem _ hb, hk⟩
    · rintro (h | ⟨b, hb, hk⟩)
      · exact Or.inl (Or.inl h)
      · rcases List.mem_cons.mp hb with h1 | h1
        · subst h1; exact Or.inl (Or.inr hk)
        · exact Or.inr ⟨b, h1, hk⟩

/-- Per-asset characterization of a tick: each processed asset `a` was decided
against the launch set `Lpre` accumulated when its turn came (a subset of the
final launch set); if the launch condition held, `a` is in the final launch
set and its final cursor entry is the `max` update, otherwise it is not in
the launch set and its entry is its pre-tick cursor. -/
theorem tickLoop_char (inst : EventInstance) (up : List (AssetKey × List AssetKey))
    (ac w : Bool) (cd : List (String × Time)) :
    ∀ (rest : List AssetKey) (st : TickState) (a : AssetKey),
      a ∈ rest → rest.Nodup → a ∉ st.shouldMaterialize →
      ∃ Lpre : List AssetKey,
        (∀ x ∈ Lpre, x ∈ (tickLoop inst up ac w cd rest st).shouldMaterialize) ∧
        (launchCond ac (recordsFor inst up cd Lpre w a) = true →
          a ∈ (tickLoop inst up ac w cd rest st).shouldMaterialize ∧
          ((tickLoop inst up ac w cd rest st).cursorUpdateDict.lookup (strKey a)) =
            some (newCursorVal (recordsFor inst up cd Lpre w a) (cursorOf cd a))) ∧
        (launchCond ac (recordsFor inst up cd Lpre w a) = false →
          a ∉ (tickLoop inst up ac w cd rest st).shouldMaterialize ∧
          ((tickLoop inst up ac w cd rest st).cursorUpdateDict.lookup (strKey a)) =
            some (cursorOf cd a)) := by
  intro rest
  induction rest with
  | nil => intro st a ha; cases ha
  | cons b rest ih =>
    intro st a ha hnd hnot
    simp only [tickLoop]
    by_cases hab : a = b
    · subst hab
      have hanr : a ∉ rest := (List.nodup_cons.mp hnd).1
      have hstable : ∀ b' ∈ rest, ¬ (strKey a = strKey b') := by
        intro b' hb' h
        exact hanr (by rw [strKey_inj h]; exact hb')
      refine ⟨st.shouldMaterialize, ?_, ?_, ?_⟩
      · intro x hx
        apply tickLoop_sm_superset
        rcases processAsset_sm inst up ac w cd st a with he | he
        · rw [he]; exact hx
        · rw [he]; exact List.mem_append_left _ hx
      · intro hl
        constructor
        · apply tickLoop_sm_superset
          rw [processAsset_eq, if_pos hl]
          exact List.mem_append_right _ (by simp)
        · rw [tickLoop_cud_stable inst up ac w cd rest _ _ hstable]
          rw [processAsset_eq, if_pos hl]
          simp [lookup_insertAssoc]
      · intro hl
        constructor
        · intro hmem
          rcases tickLoop_sm_from inst up ac w cd rest _ _ hmem with h | h
          · rw [processAsset_eq, if_neg (by simp [hl])] at h
            exact hnot h
          · exact hanr h
        · rw [tickLoop_cud_stable inst up ac w cd rest _ _ hstable]
          rw [processAsset_eq, if_neg (by simp [hl])]
          simp [lookup_insertAssoc]
    · have har : a ∈ rest := by
        rcases List.mem_cons.mp ha with h | h
        · exact absurd h hab
        · exact h
      have hnot' : a ∉ (processAsset inst up ac w cd st b).shouldMaterialize := by
        rcases processAsset_sm inst up ac w cd st b with he | he
        · rw [he]; exact hnot
        · rw [he]
          intro hmem
          rcases List.mem_append.mp hmem with h | h
          · exact hnot h
          · simp at h; exact hab h
      exact ih _ a har (List.nodup_cons.mp hnd).2 hnot'

/-- Restatement of the characterization for a whole tick. -/
theorem tickCore_char (inst : EventInstance) (up : List (AssetKey × List AssetKey))
    (ac w : Bool) (cd : List (String × Time)) (order : List AssetKey)
    (hnd : order.Nodup) (a : AssetKey) (ha : a ∈ order) :
    ∃ Lpre : List AssetKey,
      (∀ x ∈ Lpre, x ∈ (tickCore inst up ac w cd order).shouldMaterialize) ∧
      (launchCond ac (recordsFor inst up cd Lpre w a) = true →
        a ∈ (tickCore inst up ac w cd order).shouldMaterialize ∧
        ((tickCore inst up ac w cd order).cursorUpdateDict.lookup (strKey a)) =
          some (newCursorVal (recordsFor inst up cd Lpre w a) (cursorOf cd a))) ∧
      (launchCond ac (recordsFor inst up cd Lpre w a) = false →
        a ∉ (tickCore inst up ac w cd order).shouldMaterialize ∧
        ((tickCore inst up ac w cd order).cursorUpdateDict.lookup (strKey a)) =
          some (cursorOf cd a)) :=
  tickLoop_char inst up ac w cd order ⟨[], []⟩ a ha hnd (by simp)

/-- If every asset's launch condition fails against the empty launch set, the
tick launches nothing. -/
theorem tickLoop_all_skip (inst : EventInstance)
    (up : List (AssetKey × List AssetKey)) (ac w : Bool)
    (cd : List (String × Time)) :
    ∀ (rest : List AssetKey) (st : TickState),
      st.shouldMaterialize = [] →
      (∀ a ∈ rest, launchCond ac (recordsFor inst up cd [] w a) = false) →
      (tickLoop inst up ac w cd rest st).shouldMaterialize = [] := by
  intro rest
  induction rest with
  | nil => intro st h _; exact h
  | cons a rest ih =>
    intro st hsm hall
    simp only [tickLoop]
    apply ih
    · have hc : launchCond ac (recordsFor inst up cd st.shouldMaterialize w a) = false := by
        rw [hsm]; exact hall a (by simp)
      rw [processAsset_eq, if_neg (by simp [hc])]
      exact hsm
    · exact fun b hb => hall b (List.mem_cons_of_mem _ hb)

/-! ## Second-tick skip lemmas -/

theorem parentStatus_nil (inst : EventInstance) (a : AssetKey) (t : Time)
    (p : AssetKey) : parentStatus inst a t [] p = evalParent inst a t p := by
  simp [parentStatus]

theorem parentStatus_fst_false {inst : EventInstance} {a : AssetKey} {t : Time}
    {Lpre : List AssetKey} {p : AssetKey}
    (h : (parentStatus inst a t Lpre p).1 = false) :
    (evalParent inst a t p).1 = false := by
  by_cases hp : p ∈ Lpre
  · simp [parentStatus, hp] at h
  · simpa [parentStatus, hp] using h

/-- If every parent's relevant completion timestamp is at most the new cursor
value, the launch condition fails against the empty launch set. -/
theorem launchCond_false_second (inst : EventInstance) (a : AssetKey)
    (P : List AssetKey) (ac w : Bool) (t t' : Time)
    (hne : P ≠ []) (hT : t ≤ t')
    (hts : ∀ p ∈ P, (evalParent inst a t p).2 ≤ t') :
    launchCond ac (getParentUpdates inst a P t' [] w) = false := by
  rw [getParentUpdates_eq]
  by_cases hab : abortCond inst P [] w = true
  · rw [if_pos hab]
    apply launchCond_eq_false_of
    · cases P with
      | nil => exact absurd rfl hne
      | cons q Q => simp
    · intro r hr
      rcases List.mem_map.mp hr with ⟨p, hp, hpr⟩
      rw [← hpr]
  · rw [if_neg hab]
    apply launchCond_eq_false_of
    · cases P with
      | nil => exact absurd rfl hne
      | cons q Q => simp
    · intro r hr
      rcases List.mem_map.mp hr with ⟨p, hp, hpr⟩
      rw [← hpr]
      show (parentStatus inst a t' [] p).1 = false
      rw [parentStatus_nil]
      exact evalParent_fst_false_of_ge inst a p hT (hts p hp)

/-- A child that was skipped against some launch set with the same cursor is
also skipped against the empty launch set. -/
theorem launchCond_false_empty_of (inst : EventInstance) (a : AssetKey)
    (P : List AssetKey) (ac w : Bool) (t : Time) (Lpre : List AssetKey)
    (hlc : launchCond ac (getParentUpdates inst a P t Lpre w) = false) :
    launchCond ac (getParentUpdates inst a P t [] w) = false := by
  by_cases hab1 : abortCond inst P Lpre w = true
  · have hab2 := abortCond_nil_of hab1
    obtain ⟨p0, hp0, -⟩ := (abortCond_eq_true_iff inst P Lpre w).mp hab1
    rw [getParentUpdates_eq, if_pos hab2]
    apply launchCond_eq_false_of
    · cases P with
      | nil => cases hp0
      | cons q Q => simp
    · intro r hr
      rcases List.mem_map.mp hr with ⟨p, hp, hpr⟩
      rw [← hpr]
  · have hab1' : abortCond inst P Lpre w = false := by
      cases h' : abortCond inst P Lpre w
      · rfl
      · exact absurd h' hab1
    rw [getParentUpdates_eq, if_neg (by simp [hab1'])] at hlc
    by_cases hab2 : abortCond inst P [] w = true
    · obtain ⟨p0, hp0, -⟩ := (abortCond_eq_true_iff inst P [] w).mp hab2
      rw [getParentUpdates_eq, if_pos hab2]
      apply launchCond_eq_false_of
      · cases P with
        | nil => cases hp0
        | cons q Q => simp
      · intro r hr
        rcases List.mem_map.mp hr with ⟨p, hp, hpr⟩
        rw [← hpr]
    · rw [getParentUpdates_eq, if_neg hab2]
      cases ac
      · -- any-mode: every status was false, so every parent is outside Lpre
        -- and its evaluation flag is false; this is preserved.
        have h1 : ((P.map (fun p => (p, parentStatus inst a t Lpre p))).map
            (fun r => r.2.1)).any id = false := hlc
        rw [List.any_eq_false] at h1
        show ((P.map (fun p => (p, parentStatus inst a t [] p))).map
            (fun r => r.2.1)).any id = false
        rw [List.any_eq_false]
        intro x hx
        rw [map_pair_flags] at hx
        rcases List.mem_map.mp hx with ⟨p, hp, hpx⟩
        have hpf : (parentStatus inst a t Lpre p).1 = false := by
          have := h1 ((parentStatus inst a t Lpre p).1)
            (by rw [map_pair_flags]; exact List.mem_map_of_mem _ hp)
          revert this
          cases hflag : (parentStatus inst a t Lpre p).1 <;> simp
        have hef := parentStatus_fst_false hpf
        rw [← hpx, parentStatus_nil]
        simp [hef]
      · -- all-mode: some status was false; its parent is outside Lpre and
        -- stays false.
        have h1 : ((P.map (fun p => (p, parentStatus inst a t Lpre p))).map
            (fun r => r.2.1)).all id = false := hlc
        rw [List.all_eq_false] at h1
        obtain ⟨x, hx, hxf⟩ := h1
        rw [map_pair_flags] at hx
        rcases List.mem_map.mp hx with ⟨p, hp, hpx⟩
        have hpf : (parentStatus inst a t Lpre p).1 = false := by
          rw [hpx]
          revert hxf
          cases x <;> simp
        have hef := parentStatus_fst_false hpf
        show ((P.map (fun p => (p, parentStatus inst a t [] p))).map
            (fun r => r.2.1)).all id = false
        rw [List.all_eq_false]
        refine ⟨(parentStatus inst a t [] p).1, ?_, ?_⟩
        · rw [map_pair_flags]
          exact List.mem_map_of_mem _ hp
        · rw [parentStatus_nil]
          simp [hef]

/-- Core of the amended no-spurious-relaunch property, at the level of the
decision loop. -/
theorem tick_relaunch_empty (inst : EventInstance)
    (up : List (AssetKey × List AssetKey)) (ac w : Bool)
    (cd : List (String × Time)) (order : List AssetKey)
    (hnd : order.Nodup)
    (hnorider : ∀ c ∈ (tickCore inst up ac w cd order).shouldMaterialize,
        ∀ p ∈ depsOf up c, p ∉ (tickCore inst up ac w cd order).shouldMaterialize)
    (hpar : ∀ c ∈ (tickCore inst up ac w cd order).shouldMaterialize,
        depsOf up c ≠ []) :
    (tickCore inst up ac w
        (tickCore inst up ac w cd order).cursorUpdateDict order).shouldMaterialize
      = [] := by
  apply tickLoop_all_skip
  · rfl
  · intro a ha
    obtain ⟨Lpre, hLpre, hlaunch, hskip⟩ := tickCore_char inst up ac w cd order hnd a ha
    by_cases hl : launchCond ac (recordsFor inst up cd Lpre w a) = true
    · -- a launched in the first tick; its cursor advanced past every parent's
      -- relevant completion, so no parent flags as updated in the second tick.
      obtain ⟨hmem, hcud⟩ := hlaunch hl
      have hPne : depsOf up a ≠ [] := hpar a hmem
      have hnoLpre : ∀ p ∈ depsOf up a, p ∉ Lpre := by
        intro p hp hpl
        exact hnorider a hmem p hp (hLpre p hpl)
      have hab1 : abortCond inst (depsOf up a) Lpre w = false := by
        cases h' : abortCond inst (depsOf up a) Lpre w
        · rfl
        · exfalso
          have hfalse : launchCond ac (recordsFor inst up cd Lpre w a) = false := by
            unfold recordsFor
            rw [getParentUpdates_eq, if_pos h']
            apply launchCond_eq_false_of
            · cases hdep : depsOf up a with
              | nil => exact absurd hdep hPne
              | cons q Q => simp
            · intro r hr
              rcases List.mem_map.mp hr with ⟨p, hp, hpr⟩
              rw [← hpr]
          rw [hfalse] at hl; cases hl
      have hrec : recordsFor inst up cd Lpre w a =
          (depsOf up a).map (fun p => (p, evalParent inst a (cursorOf cd a) p)) := by
        unfold recordsFor
        rw [getParentUpdates_eq, if_neg (by simp [hab1])]
        apply List.map_congr_left
        intro p hp
        simp [parentStatus, hnoLpre p hp]
      have ht2 : cursorOf (tickCore inst up ac w cd order).cursorUpdateDict a =
          newCursorVal (recordsFor inst up cd Lpre w a) (cursorOf cd a) := by
        unfold cursorOf
        rw [hcud]
        rfl
      unfold recordsFor
      rw [ht2]
      apply launchCond_false_second inst a (depsOf up a) ac w (cursorOf cd a) _ hPne
      · exact aCursor_le_newCursorVal _ _
      · intro p hp
        have hmemr : (p, evalParent inst a (cursorOf cd a) p) ∈
            recordsFor inst up cd Lpre w a := by
          rw [hrec]; exact List.mem_map_of_mem _ hp
        exact ts_le_newCursorVal hmemr (cursorOf cd a)
    · -- a was skipped in the first tick; its cursor is unchanged and the skip
      -- persists against the empty launch set.
      have hl' : launchCond ac (recordsFor inst up cd Lpre w a) = false := by
        cases h' : launchCond ac (recordsFor inst up cd Lpre w a)
        · rfl
        · exact absurd h' hl
      obtain ⟨hnm, hcud⟩ := hskip hl'
      have ht2 : cursorOf (tickCore inst up ac w cd order).cursorUpdateDict a =
          cursorOf cd a := by
        unfold cursorOf
        rw [hcud]
        rfl
      unfold recordsFor
      rw [ht2]
      exact launchCond_false_empty_of inst a (depsOf up a) ac w (cursorOf cd a) Lpre hl'

/-! ## Kahn layering lemmas -/

theorem dedupFirst_mem (l : List AssetKey) (x : AssetKey) :
    x ∈ dedupFirst l ↔ x ∈ l := by
  induction l with
  | nil => simp [dedupFirst]
  | cons a l ih =>
    simp only [dedupFirst, List.mem_cons, List.mem_filter]
    constructor
    · rintro (h | ⟨h1, _⟩)
      · exact Or.inl h
      · exact Or.inr (ih.mp h1)
    · rintro (h | h)
      · exact Or.inl h
      · by_cases hx : x = a
        · exact Or.inl hx
        · exact Or.inr ⟨ih.mpr h, by simp [hx]⟩

theorem dedupFirst_nodup (l : List AssetKey) : (dedupFirst l).Nodup := by
  induction l with
  | nil => simp [dedupFirst]
  | cons a l ih =>
    simp only [dedupFirst]
    rw [List.nodup_cons]
    constructor
    · intro hmem
      rw [List.mem_filter] at hmem
      simp at hmem
    · exact List.Nodup.filter _ ih

theorem kahnAux_subset (deps : AssetKey → List AssetKey) :
    ∀ (fuel : Nat) (rem done : List AssetKey) (x : AssetKey),
      x ∈ kahnAux deps fuel rem done → x ∈ rem := by
  intro fuel
  induction fuel with
  | zero => intro rem done x hx; cases hx
  | succ fuel ih =>
    intro rem done x hx
    simp only [kahnAux] at hx
    by_cases hr : (rem.filter
        (fun k => (deps k).all (fun d => decide (d ∈ done)))).isEmpty = true
    · rw [if_pos hr] at hx; cases hx
    · rw [if_neg hr] at hx
      rcases List.mem_append.mp hx with h | h
      · exact (List.mem_filter.mp h).1
      · exact (List.mem_filter.mp (ih _ _ x h)).1

theorem kahnAux_nodup (deps : AssetKey → List AssetKey) :
    ∀ (fuel : Nat) (rem done : List AssetKey),
      rem.Nodup → (kahnAux deps fuel rem done).Nodup := by
  intro fuel
  induction fuel with
  | zero => intro rem done _; simp [kahnAux]
  | succ fuel ih =>
    intro rem done hnd
    simp only [kahnAux]
    by_cases hr : (rem.filter
        (fun k => (deps k).all (fun d => decide (d ∈ done)))).isEmpty = true
    · rw [if_pos hr]; simp
    · rw [if_neg hr]
      rw [List.nodup_append]
      refine ⟨List.Nodup.filter _ hnd, ih _ _ (List.Nodup.filter _ hnd), ?_⟩
      intro x hx hx'
      have h2 := (List.mem_filter.mp (kahnAux_subset deps fuel _ _ x hx')).2
      rw [Bool.not_eq_true', decide_eq_false_iff_not] at h2
      exact h2 hx

/-- Whenever an item is emitted, each of its dependencies was either already
done at the start or was emitted earlier in the output. -/
theorem kahnAux_before (deps : AssetKey → List AssetKey) :
    ∀ (fuel : Nat) (rem done : List AssetKey) (c p : AssetKey),
      c ∈ kahnAux deps fuel rem done → p ∈ deps c →
      p ∈ done ∨ [p, c].Sublist (kahnAux deps fuel rem done) := by
  intro fuel
  induction fuel with
  | zero => intro rem done c p hc _; cases hc
  | succ fuel ih =>
    intro rem done c p hc hp
    simp only [kahnAux] at hc ⊢
    by_cases hr : (rem.filter
        (fun k => (deps k).all (fun d => decide (d ∈ done)))).isEmpty = true
    · rw [if_pos hr] at hc; cases hc
    · rw [if_neg hr] at hc ⊢
      rcases List.mem_append.mp hc with h | h
      · -- c in the current layer: all its dependencies are done
        have hall := (List.mem_filter.mp h).2
        rw [List.all_eq_true] at hall
        have := hall p hp
        simp at this
        exact Or.inl this
      · rcases ih _ _ c p h hp with h1 | h1
        · rcases List.mem_append.mp h1 with h2 | h2
          · exact Or.inl h2
          · refine Or.inr ?_
            have hps : List.Sublist [p] (rem.filter
                (fun k => (deps k).all (fun d => decide (d ∈ done)))) :=
              List.singleton_sublist.mpr h2
            have hcs : List.Sublist [c] (kahnAux deps fuel
                (rem.filter (fun k => !(decide (k ∈ rem.filter
                  (fun k => (deps k).all (fun d => decide (d ∈ done)))))))
                (done ++ rem.filter
                  (fun k => (deps k).all (fun d => decide (d ∈ done))))) :=
              List.singleton_sublist.mpr h
            exact List.Sublist.append hps hcs
        · exact Or.inr (h1.trans (List.sublist_append_right _ _))

theorem exists_min_rank (rank : AssetKey → Nat) :
    ∀ (l : List AssetKey), l ≠ [] → ∃ m ∈ l, ∀ x ∈ l, rank m ≤ rank x := by
  intro l
  induction l with
  | nil => intro h; exact absurd rfl h
  | cons a l ih =>
    intro _
    cases l with
    | nil => exact ⟨a, by simp, by simp⟩
    | cons b l' =>
      obtain ⟨m, hm, hmin⟩ := ih (by simp)
      by_cases h : rank a ≤ rank m
      · refine ⟨a, by simp, ?_⟩
        intro x hx
        rcases List.mem_cons.mp hx with h1 | h1
        · subst h1; exact le_refl _
        · exact le_trans h (hmin x h1)
      · refine ⟨m, List.mem_cons_of_mem _ hm, ?_⟩
        intro x hx
        rcases List.mem_cons.mp hx with h1 | h1
        · subst h1; exact le_of_lt (Nat.lt_of_not_le h)
        · exact hmin x h1

/-- Under a rank function witnessing acyclicity, the Kahn layering with
enough fuel emits every item. -/
theorem kahnAux_complete (deps : AssetKey → List AssetKey) (rank : AssetKey → Nat)
    (hrank : ∀ x p, p ∈ deps x → rank p < rank x) :
    ∀ (fuel : Nat) (rem done : List AssetKey),
      (∀ x ∈ rem, ∀ p ∈ deps x, p ∈ done ∨ p ∈ rem) →
      rem.length ≤ fuel →
      ∀ a ∈ rem, a ∈ kahnAux deps fuel rem done := by
  intro fuel
  induction fuel with
  | zero =>
    intro rem done _ hlen a ha
    rw [Nat.le_zero, List.length_eq_zero] at hlen
    subst hlen; cases ha
  | succ fuel ih =>
    intro rem done hclosed hlen a ha
    simp only [kahnAux]
    have hne : rem ≠ [] := by intro h; rw [h] at ha; cases ha
    obtain ⟨m, hm, hmin⟩ := exists_min_rank rank rem hne
    have hmready : m ∈ rem.filter
        (fun k => (deps k).all (fun d => decide (d ∈ done))) := by
      rw [List.mem_filter]
      refine ⟨hm, ?_⟩
      rw [List.all_eq_true]
      intro d hd
      rcases hclosed m hm d hd with h | h
      · simp [h]
      · exfalso
        have h1 := hrank m d hd
        have h2 := hmin d h
        omega
    have hrne : (rem.filter
        (fun k => (deps k).all (fun d => decide (d ∈ done)))).isEmpty = false := by
      cases h' : (rem.filter
          (fun k => (deps k).all (fun d => decide (d ∈ done)))).isEmpty
      · rfl
      · rw [List.isEmpty_iff] at h'
        rw [h'] at hmready; cases hmready
    rw [if_neg (by simp [hrne])]
    by_cases haready : a ∈ rem.filter
        (fun k => (deps k).all (fun d => decide (d ∈ done)))
    · exact List.mem_append_left _ haready
    · apply List.mem_append_right
      apply ih
      · intro x hx p hp
        have hx' : x ∈ rem := (List.mem_filter.mp hx).1
        rcases hclosed x hx' p hp with h | h
        · exact Or.inl (List.mem_append_left _ h)
        · by_cases hpr : p ∈ rem.filter
              (fun k => (deps k).all (fun d => decide (d ∈ done)))
          · exact Or.inl (List.mem_append_right _ hpr)
          · refine Or.inr ?_
            rw [List.mem_filter]
            exact ⟨h, by simp [hpr]⟩
      · have hlt : (rem.filter (fun k => !(decide (k ∈ rem.filter
            (fun k => (deps k).all (fun d => decide (d ∈ done))))))).length <
            rem.length := by
          rw [List.length_filter_lt_length_iff_exists]
          exact ⟨m, hm, by simp [hmready]⟩
        omega
      · rw [List.mem_filter]
        exact ⟨ha, by simp [haready]⟩

/-! ## Toposort assembly -/

theorem toposort_subset_keys {up : List (AssetKey × List AssetKey)} {k : AssetKey}
    (hk : k ∈ toposortAssets up) : k ∈ up.map (fun pr => pr.1) := by
  have := (List.mem_filter.mp hk).2
  simpa using this

theorem toposort_complete (up : List (AssetKey × List AssetKey))
    (rank : AssetKey → Nat)
    (hr : ∀ c p, p ∈ depsOf up c → p ≠ c → rank p < rank c)
    {k : AssetKey} (hk : k ∈ up.map (fun pr => pr.1)) :
    k ∈ toposortAssets up := by
  unfold toposortAssets
  rw [List.mem_filter]
  refine ⟨?_, by simp [hk]⟩
  apply kahnAux_complete (topoDeps up) rank
  · intro x p hp
    rw [topoDeps, List.mem_filter] at hp
    exact hr x p hp.1 (by simpa using hp.2)
  · intro x _ p hp
    rw [topoDeps, List.mem_filter] at hp
    obtain ⟨ps, hxps, hpps⟩ := mem_depsOf hp.1
    refine Or.inr ?_
    rw [topoItems, dedupFirst_mem]
    apply List.mem_append_right
    rw [List.mem_flatten]
    exact ⟨ps, List.mem_map_of_mem (fun pr => pr.2) hxps, hpps⟩
  · exact le_refl _
  · rw [topoItems, dedupFirst_mem]
    exact List.mem_append_left _ hk

theorem toposort_nodup (up : List (AssetKey × List AssetKey)) :
    (toposortAssets up).Nodup :=
  List.Nodup.filter _
    (kahnAux_nodup (topoDeps up) (topoItems up).length (topoItems up) []
      (dedupFirst_nodup _))

theorem toposort_before (up : List (AssetKey × List AssetKey)) (c p : AssetKey)
    (hc : c ∈ toposortAssets up) (hp : p ∈ depsOf up c)
    (hpk : p ∈ up.map (fun pr => pr.1)) (hpc : p ≠ c) :
    List.Sublist [p, c] (toposortAssets up) := by
  have hcflat := (List.mem_filter.mp hc).1
  have hck : c ∈ up.map (fun pr => pr.1) := toposort_subset_keys hc
  have hdep : p ∈ topoDeps up c := by
    rw [topoDeps, List.mem_filter]
    exact ⟨hp, by simp [hpc]⟩
  rcases kahnAux_before (topoDeps up) (topoItems up).length (topoItems up) [] c p
      hcflat hdep with h | h
  · cases h
  · have hf := List.Sublist.filter
      (fun k => decide (k ∈ up.map (fun pr => pr.1))) h
    have heq : ([p, c].filter (fun k => decide (k ∈ up.map (fun pr => pr.1)))) =
        [p, c] := by
      simp [List.filter, hpk, hck]
    rw [heq] at hf
    exact hf

/-! ## Bridging lemmas for the claims -/

theorem parentStatus_eq_spec (inst : EventInstance) (c : AssetKey) (tc : Time)
    (L : List AssetKey) (p : AssetKey) :
    parentStatus inst c tc L p = specParentStatus inst c tc L p := by
  by_cases hp : p ∈ L
  · simp [parentStatus, specParentStatus, hp]
  · cases hlc : inst.latestCompleted p with
    | none => simp [parentStatus, specParentStatus, evalParent, hp, hlc]
    | some tsr =>
      obtain ⟨ts, rid⟩ := tsr
      by_cases ht : ts ≤ tc
      · simp [parentStatus, specParentStatus, evalParent, hp, hlc, ht,
          Nat.not_lt.mpr ht]
      · have ht' : tc < ts := Nat.lt_of_not_le ht
        by_cases hc : c ∈ inst.plannedAssetsInRun rid <;>
          simp [parentStatus, specParentStatus, evalParent, hp, hlc, ht, ht', hc]

theorem launchCond_iff (ac : Bool) (records : List (AssetKey × Bool × Time)) :
    launchCond ac records = true ↔
      (if ac then ∀ r ∈ records, r.2.1 = true
       else ∃ r ∈ records, r.2.1 = true) := by
  cases ac
  · show (records.map (fun r => r.2.1)).any id = true ↔
      ∃ r ∈ records, r.2.1 = true
    rw [List.any_eq_true]
    constructor
    · rintro ⟨x, hx, hxt⟩
      rcases List.mem_map.mp hx with ⟨r, hr, hrx⟩
      refine ⟨r, hr, ?_⟩
      rw [hrx]
      simpa using hxt
    · rintro ⟨r, hr, hrt⟩
      exact ⟨r.2.1, List.mem_map_of_mem _ hr, by simp [hrt]⟩
  · show (records.map (fun r => r.2.1)).all id = true ↔
      ∀ r ∈ records, r.2.1 = true
    rw [List.all_eq_true]
    constructor
    · intro h r hr
      have := h r.2.1 (List.mem_map_of_mem _ hr)
      simpa using this
    · intro h x hx
      rcases List.mem_map.mp hx with ⟨r, hr, hrx⟩
      rw [← hrx]
      simp [h r hr]

/-! ## Claims -/

/-- C1: for every child `c` with parent set `P`, cursor `t_c` and launch set
`L`, when the in-flight scan does not abort, the per-parent evaluation maps
each parent `p ∈ L` to `(true, 0)`, and each `p ∉ L` to `(false, 0)` when its
latest completed materialization `e` is absent or has `e.timestamp ≤ t_c`, to
`(false, e.timestamp)` when `e` is newer and `c` is among the assets planned
in `e`'s run, and to `(true, e.timestamp)` otherwise. -/
theorem C1_per_parent_evaluation (inst : EventInstance) (c : AssetKey)
    (P : List AssetKey) (tc : Time) (L : List AssetKey) (wait : Bool)
    (habort : abortCond inst P L wait = false) {p : AssetKey} (hp : p ∈ P) :
    (getParentUpdates inst c P tc L wait).lookup p =
      some (specParentStatus inst c tc L p) := by
  rw [getParentUpdates_eq, if_neg (by simp [habort])]
  rw [lookup_map_self hp]
  rw [parentStatus_eq_spec]

theorem C1_per_parent_evaluation_witness :
    abortCond instW ["a", "b", "x", "l"] ["l"] true = false ∧
    (getParentUpdates instW "c" ["a", "b", "x", "l"] 4 ["l"] true).lookup "a" =
      some (specParentStatus instW "c" 4 ["l"] "a") :=
  ⟨by decide,
    C1_per_parent_evaluation instW "c" ["a", "b", "x", "l"] 4 ["l"] true
      (by decide) (by decide)⟩

/-- C2: a child is added to the launch set iff in all-mode every parent
status's updated flag is true and in any-mode at least one is; on launch its
next-cursor entry is set to `max(t_c, max of the contributing timestamps)`,
and on no-launch the entry remains exactly `t_c`. -/
theorem C2_launch_decision_and_cursor (inst : EventInstance)
    (up : List (AssetKey × List AssetKey)) (ac wait : Bool)
    (cd : List (String × Time)) (st : TickState) (a : AssetKey)
    (ha : a ∉ st.shouldMaterialize) :
    (a ∈ (processAsset inst up ac wait cd st a).shouldMaterialize ↔
      (if ac then
        ∀ r ∈ recordsFor inst up cd st.shouldMaterialize wait a, r.2.1 = true
       else
        ∃ r ∈ recordsFor inst up cd st.shouldMaterialize wait a, r.2.1 = true)) ∧
    (launchCond ac (recordsFor inst up cd st.shouldMaterialize wait a) = true →
      ((processAsset inst up ac wait cd st a).cursorUpdateDict.lookup (strKey a)) =
        some (max (cursorOf cd a)
          (pyMax ((recordsFor inst up cd st.shouldMaterialize wait a).map
            (fun r => r.2.2))))) ∧
    (launchCond ac (recordsFor inst up cd st.shouldMaterialize wait a) = false →
      ((processAsset inst up ac wait cd st a).cursorUpdateDict.lookup (strKey a)) =
        some (cursorOf cd a)) := by
  refine ⟨?_, ?_, ?_⟩
  · rw [← launchCond_iff]
    constructor
    · intro hmem
      cases hl : launchCond ac (recordsFor inst up cd st.shouldMaterialize wait a)
      · rw [processAsset_eq, if_neg (by simp [hl])] at hmem
        exact absurd hmem ha
      · rfl
    · intro hl
      rw [processAsset_eq, if_pos hl]
      exact List.mem_append_right _ (by simp)
  · intro hl
    rw [processAsset_eq, if_pos hl]
    show ((insertAssoc (insertAssoc st.cursorUpdateDict (strKey a) (cursorOf cd a))
        (strKey a)
        (newCursorVal (recordsFor inst up cd st.shouldMaterialize wait a)
          (cursorOf cd a))).lookup (strKey a)) = _
    rw [lookup_insertAssoc, if_pos rfl, newCursorVal, pyMax_append_singleton]
  · intro hl
    rw [processAsset_eq, if_neg (by simp [hl])]
    show ((insertAssoc st.cursorUpdateDict (strKey a) (cursorOf cd a)).lookup
        (strKey a)) = _
    rw [lookup_insertAssoc, if_pos rfl]

theorem C2_launch_decision_and_cursor_witness :
    "d" ∉ (TickState.mk [] []).shouldMaterialize ∧
    (("d" ∈ (processAsset instW5 upW5 true true [] ⟨[], []⟩ "d").shouldMaterialize ↔
      (if (true : Bool) then
        ∀ r ∈ recordsFor instW5 upW5 [] [] true "d", r.2.1 = true
       else
        ∃ r ∈ recordsFor instW5 upW5 [] [] true "d", r.2.1 = true)) ∧
    (launchCond true (recordsFor instW5 upW5 [] [] true "d") = true →
      ((processAsset instW5 upW5 true true [] ⟨[], []⟩ "d").cursorUpdateDict.lookup
          (strKey "d")) =
        some (max (cursorOf [] "d")
          (pyMax ((recordsFor instW5 upW5 [] [] true "d").map (fun r => r.2.2))))) ∧
    (launchCond true (recordsFor instW5 upW5 [] [] true "d") = false →
      ((processAsset instW5 upW5 true true [] ⟨[], []⟩ "d").cursorUpdateDict.lookup
          (strKey "d")) =
        some (cursorOf [] "d"))) :=
  ⟨by decide, C2_launch_decision_and_cursor instW5 upW5 true true [] ⟨[], []⟩ "d"
    (by decide)⟩

/-- C3 counterexample: with `wait_for_in_progress_runs=true`, parent "p" of
child "c" has its latest planned materialization inside the in-progress run
"r2", yet "c" launches this tick: the in-flight check is skipped for parents
already in the launch set, and "p" entered the launch set earlier in the same
tick.  The claim asserts "c" does not launch in this situation. -/
theorem C3_counterexample :
    instC3.latestPlanned "p" = some "r2" ∧
    instC3.runInProgress "r2" = true ∧
    "p" ∈ depsOf upC3 "c" ∧
    "c" ∈ (tickCore instC3 upC3 true true []
      (toposortAssets upC3)).shouldMaterialize := by
  refine ⟨rfl, rfl, by decide, by decide⟩

/-- C3 amended: for every parent `p` of `c` that is NOT in the launch set,
if `p`'s latest planned materialization lies in an in-progress run and
`wait_for_in_progress_runs` is set, the evaluation returns `(false, 0)` for
every parent of `c` and `c` does not launch this tick. -/
theorem C3_amended_in_flight_deferral (inst : EventInstance)
    (up : List (AssetKey × List AssetKey)) (ac : Bool)
    (cd : List (String × Time)) (st : TickState) (c p : AssetKey) (tc : Time)
    (r : RunId) (hp : p ∈ depsOf up c) (hpL : p ∉ st.shouldMaterialize)
    (hr1 : inst.latestPlanned p = some r) (hr2 : inst.runInProgress r = true) :
    getParentUpdates inst c (depsOf up c) tc st.shouldMaterialize true =
      (depsOf up c).map (fun q => (q, false, 0)) ∧
    (processAsset inst up ac true cd st c).shouldMaterialize =
      st.shouldMaterialize := by
  have hplan : inProgressFor inst p = true := by
    simp [inProgressFor, hr1, hr2]
  have hab : abortCond inst (depsOf up c) st.shouldMaterialize true = true :=
    (abortCond_eq_true_iff _ _ _ _).mpr ⟨p, hp, hpL, rfl, hplan⟩
  constructor
  · rw [getParentUpdates_eq, if_pos hab]
  · have hlc : launchCond ac
        (recordsFor inst up cd st.shouldMaterialize true c) = false := by
      unfold recordsFor
      rw [getParentUpdates_eq, if_pos hab]
      apply launchCond_eq_false_of
      · cases hdep : depsOf up c with
        | nil => rw [hdep] at hp; cases hp
        | cons q Q => simp
      · intro x hx
        rcases List.mem_map.mp hx with ⟨q, hq, hqx⟩
        rw [← hqx]
    rw [processAsset_eq, if_neg (by simp [hlc])]

theorem C3_amended_in_flight_deferral_witness :
    "p" ∈ depsOf upC3 "c" ∧
    "p" ∉ (TickState.mk [] []).shouldMaterialize ∧
    instC3.latestPlanned "p" = some "r2" ∧
    instC3.runInProgress "r2" = true ∧
    (getParentUpdates instC3 "c" (depsOf upC3 "c") 0 [] true =
      (depsOf upC3 "c").map (fun q => (q, false, 0)) ∧
    (processAsset instC3 upC3 true true [] ⟨[], []⟩ "c").shouldMaterialize = []) :=
  ⟨by decide, by decide, rfl, rfl,
    C3_amended_in_flight_deferral instC3 upC3 true [] ⟨[], []⟩ "c" "p" 0 "r2"
      (by decide) (by decide) rfl rfl⟩

/-- C4 counterexample: the latest completion of parent "p" (time 5, run "r")
happened in a run that also planned child "c".  In all-mode "c" does not
launch — so its cursor entry stays at 0 < 5 and, the launch set being empty,
no cursor is persisted at all.  The claim asserts the persisted cursor entry
advances past the event's timestamp. -/
theorem C4_counterexample :
    instC4.latestCompleted "p" = some (5, "r") ∧
    "c" ∈ instC4.plannedAssetsInRun "r" ∧
    ((tickCore instC4 upC4 true true []
      (toposortAssets upC4)).cursorUpdateDict.lookup "c") = some 0 ∧
    sensorFn instC4 upC4 true true none = TickResult.ok none none := by
  refine ⟨rfl, by decide, by decide, by decide⟩

/-- C4 amended: when the latest completion of parent `p` is newer than the
child's cursor and its run also planned the child, `p`'s status is
`(false, ts)`, so in all-mode the event alone never causes a launch; the
next-cursor entry advances to at least `ts` only when `c` launches (possible
in any-mode through other parents), and stays at `t_c` when it does not. -/
theorem C4_amended_comaterialization (inst : EventInstance)
    (up : List (AssetKey × List AssetKey)) (ac wait : Bool)
    (cd : List (String × Time)) (st : TickState) (c p : AssetKey)
    (ts : Time) (rid : RunId)
    (hp : p ∈ depsOf up c) (hpL : p ∉ st.shouldMaterialize)
    (hlc : inst.latestCompleted p = some (ts, rid))
    (hco : c ∈ inst.plannedAssetsInRun rid)
    (hnew : cursorOf cd c < ts)
    (habort : abortCond inst (depsOf up c) st.shouldMaterialize wait = false) :
    ((recordsFor inst up cd st.shouldMaterialize wait c).lookup p =
      some (false, ts)) ∧
    (ac = true →
      (processAsset inst up ac wait cd st c).shouldMaterialize =
        st.shouldMaterialize) ∧
    (launchCond ac (recordsFor inst up cd st.shouldMaterialize wait c) = true →
      ∃ v, ((processAsset inst up ac wait cd st c).cursorUpdateDict.lookup
        (strKey c)) = some v ∧ ts ≤ v) ∧
    (launchCond ac (recordsFor inst up cd st.shouldMaterialize wait c) = false →
      ((processAsset inst up ac wait cd st c).cursorUpdateDict.lookup
        (strKey c)) = some (cursorOf cd c)) := by
  have hst : parentStatus inst c (cursorOf cd c) st.shouldMaterialize p =
      (false, ts) := by
    simp [parentStatus, hpL, evalParent, hlc, hnew, hco]
  have hrec : recordsFor inst up cd st.shouldMaterialize wait c =
      (depsOf up c).map
        (fun q => (q, parentStatus inst c (cursorOf cd c) st.shouldMaterialize q)) := by
    unfold recordsFor
    rw [getParentUpdates_eq, if_neg (by simp [habort])]
  refine ⟨?_, ?_, ?_, ?_⟩
  · rw [hrec, lookup_map_self hp, hst]
  · intro hac
    subst hac
    have hflag : launchCond true
        (recordsFor inst up cd st.shouldMaterialize wait c) = false := by
      show ((recordsFor inst up cd st.shouldMaterialize wait c).map
        (fun r => r.2.1)).all id = false
      rw [List.all_eq_false]
      refine ⟨false, ?_, by simp⟩
      rw [hrec, map_pair_flags]
      have : (parentStatus inst c (cursorOf cd c) st.shouldMaterialize p).1 =
          false := by rw [hst]
      rw [← this]
      exact List.mem_map_of_mem _ hp
    rw [processAsset_eq, if_neg (by simp [hflag])]
  · intro hl
    rw [processAsset_eq, if_pos hl]
    refine ⟨newCursorVal (recordsFor inst up cd st.shouldMaterialize wait c)
        (cursorOf cd c), ?_, ?_⟩
    · show ((insertAssoc (insertAssoc st.cursorUpdateDict (strKey c)
          (cursorOf cd c)) (strKey c)
          (newCursorVal (recordsFor inst up cd st.shouldMaterialize wait c)
            (cursorOf cd c))).lookup (strKey c)) = _
      rw [lookup_insertAssoc, if_pos rfl]
    · have hmemr : (p, (false, ts)) ∈
          recordsFor inst up cd st.shouldMaterialize wait c := by
        rw [hrec]
        rw [← hst]
        exact List.mem_map_of_mem _ hp
      exact ts_le_newCursorVal hmemr (cursorOf cd c)
  · intro hl
    rw [processAsset_eq, if_neg (by simp [hl])]
    show ((insertAssoc st.cursorUpdateDict (strKey c) (cursorOf cd c)).lookup
        (strKey c)) = _
    rw [lookup_insertAssoc, if_pos rfl]

theorem C4_amended_comaterialization_witness :
    "p" ∈ depsOf upC4 "c" ∧
    instC4.latestCompleted "p" = some (5, "r") ∧
    "c" ∈ instC4.plannedAssetsInRun "r" ∧
    cursorOf [] "c" < 5 ∧
    abortCond instC4 (depsOf upC4 "c") [] true = false ∧
    (((recordsFor instC4 upC4 [] [] true "c").lookup "p" = some (false, 5)) ∧
    ((true : Bool) = true →
      (processAsset instC4 upC4 true true [] ⟨[], []⟩ "c").shouldMaterialize = []) ∧
    (launchCond true (recordsFor instC4 upC4 [] [] true "c") = true →
      ∃ v, ((processAsset instC4 upC4 true true [] ⟨[], []⟩ "c").cursorUpdateDict.lookup
        (strKey "c")) = some v ∧ 5 ≤ v) ∧
    (launchCond true (recordsFor instC4 upC4 [] [] true "c") = false →
      ((processAsset instC4 upC4 true true [] ⟨[], []⟩ "c").cursorUpdateDict.lookup
        (strKey "c")) = some (cursorOf [] "c"))) :=
  ⟨by decide, rfl, by decide, by decide, by decide,
    C4_amended_comaterialization instC4 upC4 true true [] ⟨[], []⟩ "c" "p" 5 "r"
      (by decide) (by decide) rfl (by decide) (by decide) (by decide)⟩

/-- C5 counterexample: from the empty cursor, the tick launches ["d", "f"]
and writes the cursor; immediately re-invoking the tick against the very same
event-log snapshot launches ["f"] again.  "f" launched riding along with "d"
(status `(true, 0)`), so its cursor entry stayed 0 and never advanced past
"d"'s pre-existing completion at 7, which the first tick never examined.  The
claim asserts the second launch set is empty. -/
theorem C5_counterexample :
    sensorFn instC5 upC5 true true none =
      TickResult.ok (some (encodeCursor [("d", 1), ("f", 0)]))
        (some ⟨encodeCursor [("d", 1), ("f", 0)], ["d", "f"]⟩) ∧
    sensorFn instC5 upC5 true true (some (encodeCursor [("d", 1), ("f", 0)])) =
      TickResult.ok (some (encodeCursor [("d", 1), ("f", 7)]))
        (some ⟨encodeCursor [("d", 1), ("f", 7)], ["f"]⟩) := by
  exact ⟨by decide, by decide⟩

/-- C5 amended: if the tick launched a nonempty set in which no launched
child has a parent that also launched in the same tick (so every status came
from the event log), and every launched child has at least one parent, then
re-running the decision loop against the same snapshot starting from the
written cursor map launches nothing. -/
theorem C5_amended_no_spurious_relaunch (inst : EventInstance)
    (up : List (AssetKey × List AssetKey)) (ac w : Bool)
    (cd : List (String × Time)) (order : List AssetKey)
    (hnd : order.Nodup)
    (hne : (tickCore inst up ac w cd order).shouldMaterialize ≠ [])
    (hnorider : ∀ c ∈ (tickCore inst up ac w cd order).shouldMaterialize,
        ∀ p ∈ depsOf up c, p ∉ (tickCore inst up ac w cd order).shouldMaterialize)
    (hpar : ∀ c ∈ (tickCore inst up ac w cd order).shouldMaterialize,
        depsOf up c ≠ []) :
    (tickCore inst up ac w
      (tickCore inst up ac w cd order).cursorUpdateDict order).shouldMaterialize
      = [] :=
  tick_relaunch_empty inst up ac w cd order hnd hnorider hpar

theorem C5_amended_no_spurious_relaunch_witness :
    (toposortAssets upW5).Nodup ∧
    (tickCore instW5 upW5 true true [] (toposortAssets upW5)).shouldMaterialize ≠ [] ∧
    (∀ c ∈ (tickCore instW5 upW5 true true []
        (toposortAssets upW5)).shouldMaterialize,
      ∀ p ∈ depsOf upW5 c,
        p ∉ (tickCore instW5 upW5 true true []
          (toposortAssets upW5)).shouldMaterialize) ∧
    (tickCore instW5 upW5 true true
      (tickCore instW5 upW5 true true [] (toposortAssets upW5)).cursorUpdateDict
      (toposortAssets upW5)).shouldMaterialize = [] :=
  ⟨by decide, by decide, by decide,
    C5_amended_no_spurious_relaunch instW5 upW5 true true [] (toposortAssets upW5)
      (by decide) (by decide) (by decide) (by decide)⟩

/-- C6: every monitored child's cursor entry after the tick is defined and at
least its pre-tick cursor value, a missing entry reading as 0. -/
theorem C6_cursor_monotone (inst : EventInstance)
    (up : List (AssetKey × List AssetKey)) (ac w : Bool)
    (cd : List (String × Time)) (order : List AssetKey)
    (hnd : order.Nodup) {a : AssetKey} (ha : a ∈ order) :
    ∃ v, ((tickCore inst up ac w cd order).cursorUpdateDict.lookup (strKey a)) =
        some v ∧ (cd.lookup (strKey a)).getD 0 ≤ v := by
  obtain ⟨Lpre, hLpre, hlaunch, hskip⟩ :=
    tickCore_char inst up ac w cd order hnd a ha
  cases hl : launchCond ac (recordsFor inst up cd Lpre w a)
  · obtain ⟨-, hcud⟩ := hskip hl
    exact ⟨cursorOf cd a, hcud, le_refl _⟩
  · obtain ⟨-, hcud⟩ := hlaunch hl
    exact ⟨_, hcud, aCursor_le_newCursorVal _ _⟩

theorem C6_cursor_monotone_witness :
    (toposortAssets upW5).Nodup ∧
    "d" ∈ toposortAssets upW5 ∧
    (∃ v, ((tickCore instW5 upW5 true true [("d", 9)]
        (toposortAssets upW5)).cursorUpdateDict.lookup (strKey "d")) = some v ∧
      (([("d", 9)] : List (String × Time)).lookup (strKey "d")).getD 0 ≤ v) :=
  ⟨by decide, by decide,
    C6_cursor_monotone instW5 upW5 true true [("d", 9)] (toposortAssets upW5)
      (by decide) (by decide)⟩

/-- C7: a tick whose launch set ends up empty leaves the persisted cursor
untouched (no `update_cursor` call) and emits no run request. -/
theorem C7_empty_launch_frame (inst : EventInstance)
    (up : List (AssetKey × List AssetKey)) (ac w : Bool)
    (cursor : Option String) (cd : List (String × Time))
    (hdec : decodeCursor cursor = some cd)
    (hempty : (tickCore inst up ac w cd
      (toposortAssets up)).shouldMaterialize = []) :
    sensorFn inst up ac w cursor = TickResult.ok none none := by
  unfold sensorFn
  rw [hdec]
  simp [hempty]

theorem C7_empty_launch_frame_witness :
    decodeCursor none = some [] ∧
    (tickCore instQuiet upC4 true true []
      (toposortAssets upC4)).shouldMaterialize = [] ∧
    sensorFn instQuiet upC4 true true none = TickResult.ok none none :=
  ⟨rfl, by decide, C7_empty_launch_frame instQuiet upC4 true true none [] rfl
    (by decide)⟩

/-- C8 counterexample: for the upstream map with keys "b" then "a" and no
dependencies, both children sit in the same Kahn layer; the code flattens the
layer in the set's iteration order (modelled as insertion order; in CPython
it is hash order), yielding ["b", "a"] — the claimed canonical-key tie-break
would yield ["a", "b"].  Nothing in the code sorts within a layer. -/
theorem C8_counterexample :
    toposortAssets [("b", []), ("a", [])] = ["b", "a"] ∧
    (["b", "a"] : List AssetKey) ≠ ["a", "b"] :=
  ⟨by decide, by decide⟩

/-- C8 amended: for every upstream map acyclic on its non-self edges, the
topological orderer returns a duplicate-free flat sequence containing exactly
the monitored children, in which every monitored parent precedes its
monitored child; within a layer the order is the layer set's iteration order,
not the canonical key string. -/
theorem C8_amended_topological_order (up : List (AssetKey × List AssetKey))
    (rank : AssetKey → Nat)
    (hr : ∀ pr ∈ up, ∀ p ∈ pr.2, p ≠ pr.1 → rank p < rank pr.1) :
    (∀ k, k ∈ toposortAssets up ↔ k ∈ up.map (fun pr => pr.1)) ∧
    (toposortAssets up).Nodup ∧
    (∀ c p, c ∈ toposortAssets up → p ∈ depsOf up c →
      p ∈ up.map (fun pr => pr.1) → p ≠ c →
      List.Sublist [p, c] (toposortAssets up)) := by
  have hr' : ∀ c p, p ∈ depsOf up c → p ≠ c → rank p < rank c := by
    intro c p hp hpc
    obtain ⟨ps, hcps, hpps⟩ := mem_depsOf hp
    exact hr (c, ps) hcps p hpps hpc
  refine ⟨?_, toposort_nodup up, ?_⟩
  · intro k
    exact ⟨toposort_subset_keys, fun hk => toposort_complete up rank hr' hk⟩
  · intro c p hc hp hpk hpc
    exact toposort_before up c p hc hp hpk hpc

theorem C8_amended_topological_order_witness :
    (∀ pr ∈ upC5, ∀ p ∈ pr.2, p ≠ pr.1 → rankW8 p < rankW8 pr.1) ∧
    ((∀ k, k ∈ toposortAssets upC5 ↔ k ∈ upC5.map (fun pr => pr.1)) ∧
    (toposortAssets upC5).Nodup ∧
    (∀ c p, c ∈ toposortAssets upC5 → p ∈ depsOf upC5 c →
      p ∈ upC5.map (fun pr => pr.1) → p ≠ c →
      List.Sublist [p, c] (toposortAssets upC5))) :=
  ⟨by decide, C8_amended_topological_order upC5 rankW8 (by decide)⟩

/-- C9 counterexample: a corrupt cursor string does not make the tick proceed
with the empty map — it aborts with the decode error, unlike the absent
cursor, which proceeds normally.  The claim asserts graceful degradation to
the empty map. -/
theorem C9_counterexample :
    sensorFn instQuiet upC4 true true (some "oops") = TickResult.decodeError ∧
    sensorFn instQuiet upC4 true true none = TickResult.ok none none :=
  ⟨by decide, by decide⟩

/-- C9 amended: an absent cursor and the empty string decode to the empty
map (Python falsiness at line 195); every corrupt non-empty cursor string
makes the tick fail with the propagated decode error rather than proceeding,
leaving the cursor untouched and emitting nothing. -/
theorem C9_amended_decode_failure (inst : EventInstance)
    (up : List (AssetKey × List AssetKey)) (ac w : Bool) :
    decodeCursor none = some [] ∧
    decodeCursor (some "") = some [] ∧
    (∀ s, s ≠ "" → jsonLoadsDict s = none →
      sensorFn inst up ac w (some s) = TickResult.decodeError) := by
  refine ⟨rfl, rfl, ?_⟩
  intro s hs hj
  have hd : decodeCursor (some s) = none := by simp [decodeCursor, hs, hj]
  unfold sensorFn
  rw [hd]

theorem C9_amended_decode_failure_witness :
    ("xx" : String) ≠ "" ∧ jsonLoadsDict "xx" = none ∧
    sensorFn instQuiet upC4 true true (some "xx") = TickResult.decodeError :=
  ⟨by decide, by decide,
    (C9_amended_decode_failure instQuiet upC4 true true).2.2 "xx" (by decide)
      (by decide)⟩

/-- C10: when the tick writes the cursor (nonempty launch set), the written
blob is the serialization of the update dict, and that dict has an entry for
a key iff the key is the canonical string of a monitored child: every
monitored child is seeded even without launching, and keys no longer
monitored are dropped because the dict is rebuilt from scratch each tick. -/
theorem C10_written_cursor_keys (inst : EventInstance)
    (up : List (AssetKey × List AssetKey)) (ac w : Bool)
    (cursor : Option String) (cd : List (String × Time)) (rank : AssetKey → Nat)
    (hdec : decodeCursor cursor = some cd)
    (hr : ∀ pr ∈ up, ∀ p ∈ pr.2, p ≠ pr.1 → rank p < rank pr.1)
    (hne : (tickCore inst up ac w cd
      (toposortAssets up)).shouldMaterialize ≠ []) :
    sensorFn inst up ac w cursor =
      TickResult.ok
        (some (encodeCursor
          (tickCore inst up ac w cd (toposortAssets up)).cursorUpdateDict))
        (some ⟨encodeCursor
            (tickCore inst up ac w cd (toposortAssets up)).cursorUpdateDict,
          (tickCore inst up ac w cd (toposortAssets up)).shouldMaterialize⟩) ∧
    (∀ s, (((tickCore inst up ac w cd
        (toposortAssets up)).cursorUpdateDict.lookup s).isSome = true) ↔
      ∃ a ∈ up.map (fun pr => pr.1), s = strKey a) := by
  have hr' : ∀ c p, p ∈ depsOf up c → p ≠ c → rank p < rank c := by
    intro c p hp hpc
    obtain ⟨ps, hcps, hpps⟩ := mem_depsOf hp
    exact hr (c, ps) hcps p hpps hpc
  constructor
  · unfold sensorFn
    rw [hdec]
    simp [List.isEmpty_iff, hne]
  · intro s
    have h1 := tickLoop_cud_isSome inst up ac w cd (toposortAssets up) ⟨[], []⟩ s
    constructor
    · intro h
      rcases h1.mp h with h2 | h2
      · simp [List.lookup] at h2
      · obtain ⟨a, ha, hsa⟩ := h2
        exact ⟨a, toposort_subset_keys ha, hsa⟩
    · rintro ⟨a, ha, hsa⟩
      apply h1.mpr
      exact Or.inr ⟨a, toposort_complete up rank hr' ha, hsa⟩

theorem C10_written_cursor_keys_witness :
    decodeCursor none = some [] ∧
    (∀ pr ∈ upW5, ∀ p ∈ pr.2, p ≠ pr.1 → rankW8 p < rankW8 pr.1) ∧
    (tickCore instW5 upW5 true true []
      (toposortAssets upW5)).shouldMaterialize ≠ [] ∧
    (sensorFn instW5 upW5 true true none =
      TickResult.ok
        (some (encodeCursor
          (tickCore instW5 upW5 true true []
            (toposortAssets upW5)).cursorUpdateDict))
        (some ⟨encodeCursor
            (tickCore instW5 upW5 true true []
              (toposortAssets upW5)).cursorUpdateDict,
          (tickCore instW5 upW5 true true []
            (toposortAssets upW5)).shouldMaterialize⟩) ∧
    (∀ s, (((tickCore instW5 upW5 true true []
        (toposortAssets upW5)).cursorUpdateDict.lookup s).isSome = true) ↔
      ∃ a ∈ upW5.map (fun pr => pr.1), s = strKey a)) :=
  ⟨rfl, by decide, by decide,
    C10_written_cursor_keys instW5 upW5 true true none [] rankW8 rfl (by decide)
      (by decide)⟩

end AssetReconciliation
